import Mathlib

/-!
Verification of the command-execution core of `openai-assistant-improved`
(`src/command_executor.py`), shallowly embedded in Lean 4.

Python strings are modelled as `List Char` (`Str`).  The functions
`is_safe_command`, `filter_commands` and `execute_commands` are translated
from the source; the effectful parts of `execute_commands` (the wall clock
read at each loop iteration and the call to `execute_command_realtime`)
are supplied by an `ExecEnv` oracle, so one run of the batch executor is a
pure function of the command text, the timeout and the oracle.  The
threaded polling loop of `execute_command_realtime` is modelled as a small
transition system driven by an explicit schedule of atomic events.
-/

set_option maxHeartbeats 1000000

/-- Python strings, modelled as lists of characters. -/
abbrev Str := List Char

/-- The character class of Python `str.strip()` (and of the regex class
backslash-s) restricted to ASCII: space, tab, newline, carriage return,
vertical tab, form feed.  The inputs of every claim are ASCII, where
Python's set coincides with this one. -/
def isPySpace (c : Char) : Bool :=
  c == ' ' || c == '\t' || c == '\n' || c == '\r' || c == '\x0b' || c == '\x0c'

/-- Python `str.strip()`: remove leading and trailing whitespace. -/
def strip (s : Str) : Str :=
  ((s.dropWhile isPySpace).reverse.dropWhile isPySpace).reverse

/-- Python `s.startswith('#')`, used on stripped lines. -/
def startsWithHash (s : Str) : Bool :=
  match s with
  | [] => false
  | c :: _ => c == '#'

/-- Python `s.split('\n')`: split at every newline; always returns at least
one piece, one more piece than there are newlines. -/
def splitLines : Str → List Str
  | [] => [[]]
  | c :: rest =>
    if c = '\n' then [] :: splitLines rest
    else (c :: (splitLines rest).headI) :: (splitLines rest).tail

/-- Python `'\n'.join(parts)`. -/
def joinLines : List Str → Str
  | [] => []
  | [l] => l
  | l :: l' :: ls => l ++ '\n' :: joinLines (l' :: ls)

/-- The decimal digit character for `n < 10` (Python digits '0'..'9'). -/
def digitToChar (n : Nat) : Char := Char.ofNat (48 + n)

/-- Decimal digits of `n`, structurally recursive on a fuel bound (any fuel
above the digit count gives the full numeral, and `natToStr` passes `n + 1`,
always enough since `n / 10 < n` for `n ≥ 10`). -/
def natToStrAux : Nat → Nat → Str
  | 0, _ => []
  | fuel + 1, n =>
    if n < 10 then [digitToChar n]
    else natToStrAux fuel (n / 10) ++ [digitToChar (n % 10)]

/-- Python `str(n)` for a natural number: decimal digits, no sign. -/
def natToStr (n : Nat) : Str := natToStrAux (n + 1) n

/-- Python `str(i)` for an integer. -/
def intToStr (i : Int) : Str :=
  if i < 0 then '-' :: natToStr (-i).toNat else natToStr i.toNat

/-- Two-digit zero-padded decimal, the fractional part of `fmt2f`. -/
def pad2 (n : Nat) : Str := if n < 10 then '0' :: natToStr n else natToStr n

/-- The number of hundredths in `q`, rounded to nearest (halves up): the
floor of `100 q + 1/2`, computed directly on numerator and denominator with
flooring integer division. -/
def centsOf (q : ℚ) : Int :=
  (200 * q.num + (q.den : Int)).fdiv (2 * (q.den : Int))

/-- Python's fixed-point float formatting `f"..x:.2f.."` for the nonnegative
elapsed-time values of the batch executor: integer part, '.', two rounded
fractional digits.  (Tie-rounding details of binary floats are immaterial to
every claim here: only the character shape — digits and one dot — matters.) -/
def fmt2f (q : ℚ) : Str :=
  natToStr ((centsOf q).toNat / 100) ++ '.' :: pad2 ((centsOf q).toNat % 100)

/-- `p` is a prefix of `s` (Python `s.startswith(p)` as a proposition). -/
def PreStr (p s : Str) : Prop := ∃ t, s = p ++ t

/-- `n` occurs as a contiguous substring of `s` (Python `n in s`). -/
def SubStr (n s : Str) : Prop := ∃ p t, s = p ++ (n ++ t)

/-- Executable prefix test. -/
def preB : Str → Str → Bool
  | [], _ => true
  | _ :: _, [] => false
  | a :: as, b :: bs => a == b && preB as bs

/-- Executable substring test (Python `in`). -/
def subB (n : Str) : Str → Bool
  | [] => n.isEmpty
  | c :: rest => preB n (c :: rest) || subB n rest

/-!
A small regular-expression engine (Brzozowski derivatives) giving exact
semantics to the constructs the seven denylist patterns of
`is_safe_command` use: literal characters, character classes (the regex
whitespace class, the bracket class slash-or-tilde, and the dot), `+`
repetition via `star`, concatenation, alternation, and the empty group.
-/

/-- Regular expressions over `Char`. -/
inductive Regex
  | emp
  | eps
  | chr (c : Char)
  | cls (p : Char → Bool)
  | seq (r₁ r₂ : Regex)
  | alt (r₁ r₂ : Regex)
  | star (r : Regex)

/-- Does the regex accept the empty string? -/
def nullable : Regex → Bool
  | .emp => false
  | .eps => true
  | .chr _ => false
  | .cls _ => false
  | .seq r₁ r₂ => nullable r₁ && nullable r₂
  | .alt r₁ r₂ => nullable r₁ || nullable r₂
  | .star _ => true

/-- Brzozowski derivative of a regex by one character. -/
def rderiv : Regex → Char → Regex
  | .emp, _ => .emp
  | .eps, _ => .emp
  | .chr c', c => if c' = c then .eps else .emp
  | .cls p, c => if p c then .eps else .emp
  | .seq r₁ r₂, c =>
    if nullable r₁ then .alt (.seq (rderiv r₁ c) r₂) (rderiv r₂ c)
    else .seq (rderiv r₁ c) r₂
  | .alt r₁ r₂, c => .alt (rderiv r₁ c) (rderiv r₂ c)
  | .star r, c => .seq (rderiv r c) (.star r)

/-- Does the regex match some prefix of the string? -/
def matchPre : Regex → Str → Bool
  | r, [] => nullable r
  | r, c :: cs => nullable r || matchPre (rderiv r c) cs

/-- Python `re.search(r, s)` as a boolean: the regex matches somewhere in
the string (any start position, any length). -/
def reSearch (r : Regex) : Str → Bool
  | [] => nullable r
  | c :: rest => matchPre r (c :: rest) || reSearch r rest

/-- The regex matching one literal string. -/
def strR (s : Str) : Regex := s.foldr (fun c r => Regex.seq (Regex.chr c) r) Regex.eps

/-- `r+` : one or more repetitions. -/
def plusR (r : Regex) : Regex := Regex.seq r (Regex.star r)

/-- The regex whitespace class followed by `+`. -/
def wsPlus : Regex := plusR (Regex.cls isPySpace)

/-- The regex dot: any character except newline. -/
def dotR : Regex := Regex.cls (fun c => !(c == '\n'))

/-- Denylist pattern 1: remove root or home (`rm` whitespace `-rf` whitespace
then a slash-or-tilde class). -/
def pat_rm_rf : Regex :=
  .seq (strR "rm".toList) (.seq wsPlus (.seq (strR "-rf".toList)
    (.seq wsPlus (.cls (fun c => c == '/' || c == '~')))))

/-- Denylist pattern 2: format filesystems (the literal `mkfs`). -/
def pat_mkfs : Regex := strR "mkfs".toList

/-- Denylist pattern 3: zero-fill device writes (`dd` whitespace `if=/dev/zero`). -/
def pat_dd : Regex :=
  .seq (strR "dd".toList) (.seq wsPlus (strR "if=/dev/zero".toList))

/-- Denylist pattern 4, the fork-bomb entry.  In Python's regex syntax the
written pattern parses as a top-level alternation: colon, an empty group,
open brace, colon — i.e. the literal colon-brace-colon — OR the literal
colon-ampersand-close brace-semicolon-colon.  Both branches are kept
as parsed, the empty group included. -/
def pat_forkbomb : Regex :=
  .alt (.seq (.chr ':') (.seq .eps (strR "\x7b:".toList)))
       (strR ":&\x7d;:".toList)

/-- Denylist pattern 5: recursive permission change (`chmod` whitespace `-R`
whitespace `777` whitespace then slash-or-tilde; the literal is lowered
because matching is case-insensitive, see `is_safe_command`). -/
def pat_chmod : Regex :=
  .seq (strR "chmod".toList) (.seq wsPlus (.seq (strR "-r".toList)
    (.seq wsPlus (.seq (strR "777".toList)
      (.seq wsPlus (.cls (fun c => c == '/' || c == '~')))))))

/-- Denylist pattern 6: download piped into bash (`wget` dot-plus whitespace
pipe whitespace `bash`). -/
def pat_wget : Regex :=
  .seq (strR "wget".toList) (.seq (plusR dotR)
    (.seq wsPlus (.seq (.chr '|') (.seq wsPlus (strR "bash".toList)))))

/-- Denylist pattern 7: like pattern 6 with `curl`. -/
def pat_curl : Regex :=
  .seq (strR "curl".toList) (.seq (plusR dotR)
    (.seq wsPlus (.seq (.chr '|') (.seq wsPlus (strR "bash".toList)))))

/-- The fixed denylist of `is_safe_command`, in source order. -/
def dangerous_patterns : List Regex :=
  [pat_rm_rf, pat_mkfs, pat_dd, pat_forkbomb, pat_chmod, pat_wget, pat_curl]

/-- ASCII lowering of a string.  The source matches each pattern with
`re.IGNORECASE`; since every letter in the patterns is written (or, for the
single `-R`, modelled) lowercase, case-insensitive search coincides with
searching the lowered command, which is how it is modelled here. -/
def toLowerStr (s : Str) : Str := s.map Char.toLower

/-- `is_safe_command` (src/command_executor.py:136-162): the command is safe
iff no denylist pattern is found in it by a case-insensitive search. -/
def is_safe_command (command : Str) : Bool :=
  !(dangerous_patterns.any fun p => reSearch p (toLowerStr command))

/-- The replacement comment `filter_commands` writes over an unsafe line
(`n` is the 1-based line number). -/
def skipMarker (n : Nat) (line : Str) : Str :=
  "# SKIPPED POTENTIALLY UNSAFE COMMAND (line ".toList ++ natToStr n
    ++ "): ".toList ++ line

/-- The loop body of `filter_commands`, iterating over the enumerated lines
(`i` is the 0-based index of the first line of `ls`): returns the filtered
lines and the skipped `(line number, original)` pairs. -/
def filterAux : Nat → List Str → List Str × List (Nat × Str)
  | _, [] => ([], [])
  | i, line :: rest =>
    let r := filterAux (i + 1) rest
    if (strip line).isEmpty || startsWithHash (strip line) then
      (line :: r.1, r.2)
    else if is_safe_command line then
      (line :: r.1, r.2)
    else
      (skipMarker (i + 1) line :: r.1, (i + 1, line) :: r.2)

/-- `filter_commands` (src/command_executor.py:164-191): split into lines,
pass blank and comment lines through, keep safe lines, replace unsafe lines
in place with `skipMarker`, and report the skipped pairs. -/
def filter_commands (commands : Str) : Str × List (Nat × Str) :=
  let r := filterAux 0 (splitLines commands)
  (joinLines r.1, r.2)

/-- A list paired with 0-based indices starting at `i`
(Python `enumerate`). -/
def withIdx : Nat → List α → List (Nat × α)
  | _, [] => []
  | i, a :: as => (i, a) :: withIdx (i + 1) as

/-!
The batch executor `execute_commands` (src/command_executor.py:94-134).
Its two effects — the wall-clock reading `time.time() - start_time` taken
at the top of each loop iteration, and the call
`execute_command_realtime(cmd, prefix)` — are supplied by an oracle, so a
run is a pure function of `(oracle, commands, timeout)`.
-/

/-- The effect oracle of one `execute_commands` run: `elapsedAt i` is the
value of `time.time() - start_time` observed at the timeout check of loop
iteration `i`; `run i cmd` is the `(exit_code, cmd_output)` pair returned
by `execute_command_realtime` for the `i`-th command; `finalElapsed` is the
elapsed time measured after the loop for the summary line. -/
structure ExecEnv where
  elapsedAt : Nat → ℚ
  run : Nat → Str → Int × Str
  finalElapsed : ℚ

/-- The bookkeeping of one batch run: `parts` is the `output_parts` list the
source accumulates (joined with newlines on return); `results` records, in
order, one `(command, exit code, captured output)` triple per invocation of
`execute_command_realtime`; `aborted` is true exactly when the loop exited
through one of its two `break`s (timeout or non-zero exit). -/
structure BatchState where
  parts : List Str
  results : List (Str × Int × Str)
  aborted : Bool

/-- The header `"\n# Command i: cmd"` appended before each command's output
(`i` is the 1-based position). -/
def cmdHeader (i : Nat) (cmd : Str) : Str :=
  "\n# Command ".toList ++ natToStr i ++ ": ".toList ++ cmd

/-- The notice `"\nERROR: Command failed with exit code c"`. -/
def failMsg (code : Int) : Str :=
  "\nERROR: Command failed with exit code ".toList ++ intToStr code

/-- The notice `"\nERROR: Command execution timed out after t seconds."`. -/
def timeoutMsg (t : Int) : Str :=
  "\nERROR: Command execution timed out after ".toList ++ intToStr t
    ++ " seconds.".toList

/-- The summary `"\n=== Execution completed in e seconds ==="`. -/
def summaryMsg (e : ℚ) : Str :=
  "\n=== Execution completed in ".toList ++ fmt2f e ++ " seconds ===".toList

/-- The literal `"ERROR:"`, the text-based failure signal the caller of
`execute_commands` greps the transcript for (src/main.py:349). -/
def errTok : Str := "ERROR:".toList

/-- The `for i, cmd in enumerate(command_lines)` loop of `execute_commands`
(src/command_executor.py:115-129): before each command compare the elapsed
time against the timeout (strictly greater aborts), run the command, append
the header and its output, and stop after the first non-zero exit code. -/
def runLoop (env : ExecEnv) (t : Int) : Nat → List Str → BatchState
  | _, [] => ⟨[], [], false⟩
  | i, cmd :: rest =>
    if (t : ℚ) < env.elapsedAt i then
      ⟨[timeoutMsg t], [], true⟩
    else if (env.run i cmd).1 ≠ 0 then
      ⟨[cmdHeader (i + 1) cmd, (env.run i cmd).2, failMsg (env.run i cmd).1],
       [(cmd, env.run i cmd)], true⟩
    else
      ⟨cmdHeader (i + 1) cmd :: (env.run i cmd).2
         :: (runLoop env t (i + 1) rest).parts,
       (cmd, env.run i cmd) :: (runLoop env t (i + 1) rest).results,
       (runLoop env t (i + 1) rest).aborted⟩

/-- The command candidates of a batch (src/command_executor.py:109): the
lines that are non-blank and not comments after stripping. -/
def commandLines (commands : Str) : List Str :=
  (splitLines commands).filter
    fun c => !(strip c).isEmpty && !startsWithHash (strip c)

/-- `execute_commands` (src/command_executor.py:94-134).  Returns the
transcript the source returns (its `output_parts` joined with newlines, the
summary line included) paired with the run's `BatchState`.  The prefix
`"[i/total]"` passed to `execute_command_realtime` is display-only and does
not enter the transcript. -/
def execute_commands (env : ExecEnv) (commands : Str) (t : Int) :
    Str × BatchState :=
  if (strip commands).isEmpty then
    ("No commands to execute.".toList, ⟨[], [], false⟩)
  else
    let st := runLoop env t 0 (commandLines commands)
    (joinLines (st.parts ++ [summaryMsg env.finalElapsed]), st)

/-- The parts the loop appends when nothing aborts: a header and the
captured output per command, in order (`i` is the 0-based index of the
first command of `ls`). -/
def partsOf (env : ExecEnv) : Nat → List Str → List Str
  | _, [] => []
  | i, cmd :: rest =>
    cmdHeader (i + 1) cmd :: (env.run i cmd).2 :: partsOf env (i + 1) rest

/-- The per-command results when nothing aborts: one triple per command, in
order. -/
def resultsOf (env : ExecEnv) : Nat → List Str → List (Str × Int × Str)
  | _, [] => []
  | i, cmd :: rest => (cmd, env.run i cmd) :: resultsOf env (i + 1) rest

/-!
The realtime executor `execute_command_realtime`
(src/command_executor.py:20-92) runs two reader threads (one per output
pipe) and a polling consumer loop.  The model below makes every shared-state
access one atomic event and lets an arbitrary schedule interleave them:

  * `rdOut` / `rdErr`: a reader thread moves the next buffered line from its
    pipe to the end of its queue (`read_output`, lines 14-18);
  * `pExit`: the child process terminates, making `process.poll()` non-None
    (pipe contents stay readable afterwards, as with a real pipe);
  * `consStep`: the consumer loop takes its next atomic step, tracked by a
    program counter: the break check (line 65: process exited and both
    queues observed empty), the stdout `get_nowait` (lines 69-75), the
    stderr `get_nowait` (lines 77-84, tagging the line with `"ERROR: "`).

The real break check reads `poll()` and the two queues in three separate
operations; making it one atomic event only removes interleavings, so any
bad schedule of this model is also a schedule of the source.  A run is
complete when the process has exited, both pipes are drained (so both
reader threads have hit end-of-stream and `join()` has returned) and the
consumer reached `done`; the function then returns `out` joined as the
transcript.
-/

/-- The consumer loop's program counter. -/
inductive ConsumerPC
  | atCheck
  | atReadOut
  | atReadErr
  | done

/-- The shared state of one `execute_command_realtime` run. -/
structure RTState where
  pipeOut : List Str
  pipeErr : List Str
  exited : Bool
  qOut : List Str
  qErr : List Str
  out : List Str
  pc : ConsumerPC

/-- One atomic event of the interleaved execution. -/
inductive REvent
  | rdOut
  | rdErr
  | pExit
  | consStep

/-- The effect of one atomic event (events not enabled in the current state
leave it unchanged). -/
def rtStep (e : REvent) (s : RTState) : RTState :=
  match e with
  | .rdOut =>
    match s.pipeOut with
    | [] => s
    | l :: rest => { s with pipeOut := rest, qOut := s.qOut ++ [l] }
  | .rdErr =>
    match s.pipeErr with
    | [] => s
    | l :: rest => { s with pipeErr := rest, qErr := s.qErr ++ [l] }
  | .pExit => { s with exited := true }
  | .consStep =>
    match s.pc with
    | .atCheck =>
      if s.exited && s.qOut.isEmpty && s.qErr.isEmpty then
        { s with pc := .done }
      else
        { s with pc := .atReadOut }
    | .atReadOut =>
      match s.qOut with
      | [] => { s with pc := .atReadErr }
      | l :: rest => { s with qOut := rest, out := s.out ++ [l], pc := .atReadErr }
    | .atReadErr =>
      match s.qErr with
      | [] => { s with pc := .atCheck }
      | l :: rest =>
        { s with qErr := rest, out := s.out ++ ["ERROR: ".toList ++ l],
                 pc := .atCheck }
    | .done => s

/-- Run a schedule of atomic events from a state. -/
def runSched (sched : List REvent) (s : RTState) : RTState :=
  sched.foldl (fun s e => rtStep e s) s

/-- The initial state of a run whose child process writes `outLines` to
stdout and `errLines` to stderr. -/
def rtInit (outLines errLines : List Str) : RTState :=
  ⟨outLines, errLines, false, [], [], [], .atCheck⟩

/-- A run is complete: the process exited, both pipes are drained (both
reader threads hit end-of-stream, so `join()` has returned) and the
consumer loop has broken out.  `execute_command_realtime` then returns
`out` concatenated as the captured transcript. -/
def rtComplete (s : RTState) : Prop :=
  s.pipeOut = [] ∧ s.pipeErr = [] ∧ s.exited = true ∧ s.pc = ConsumerPC.done

/-- A concrete oracle for witnesses and counterexamples: the clock always
reads `e`, every command returns exit code `code` with captured output
`out`. -/
def constEnv (e : ℚ) (code : Int) (out : Str) : ExecEnv :=
  ⟨fun _ => e, fun _ _ => (code, out), 0⟩

/-- A concrete oracle whose third command (index 2) fails with exit code 1
and whose other commands succeed silently; the clock always reads 0. -/
def failAt2Env : ExecEnv :=
  ⟨fun _ => 0, fun i _ => if i = 2 then (1, []) else (0, []), 0⟩

/-!  Helper lemmas: prefix and substring reasoning. -/

theorem preB_iff : ∀ p s : Str, preB p s = true ↔ PreStr p s
  | [], s => by simp [preB, PreStr]
  | _ :: _, [] => by simp [preB, PreStr]
  | a :: as, b :: bs => by
    simp only [preB, Bool.and_eq_true, beq_iff_eq]
    constructor
    · rintro ⟨rfl, h⟩
      obtain ⟨t, rfl⟩ := (preB_iff as bs).1 h
      exact ⟨t, rfl⟩
    · rintro ⟨t, h⟩
      simp only [List.cons_append, List.cons.injEq] at h
      obtain ⟨rfl, h⟩ := h
      exact ⟨rfl, (preB_iff as bs).2 ⟨t, h⟩⟩

theorem sub_nil_iff (n : Str) : SubStr n [] ↔ n = [] := by
  constructor
  · rintro ⟨p, t, h⟩
    rcases List.append_eq_nil.mp h.symm with ⟨-, h2⟩
    exact (List.append_eq_nil.mp h2).1
  · rintro rfl
    exact ⟨[], [], rfl⟩

theorem sub_cons_iff (n s : Str) (c : Char) :
    SubStr n (c :: s) ↔ PreStr n (c :: s) ∨ SubStr n s := by
  constructor
  · rintro ⟨p, t, h⟩
    match p with
    | [] => exact Or.inl ⟨t, by simpa using h⟩
    | d :: p' =>
      simp only [List.cons_append, List.cons.injEq] at h
      exact Or.inr ⟨p', t, h.2⟩
  · rintro (⟨t, h⟩ | ⟨p, t, h⟩)
    · exact ⟨[], t, by simpa using h⟩
    · exact ⟨c :: p, t, by simp [h]⟩

theorem sub_cons_of {n s : Str} (c : Char) (h : SubStr n s) : SubStr n (c :: s) :=
  (sub_cons_iff n s c).2 (Or.inr h)

theorem sub_append_left {n s : Str} (x : Str) (h : SubStr n s) : SubStr n (x ++ s) := by
  obtain ⟨p, t, rfl⟩ := h
  exact ⟨x ++ p, t, by simp⟩

theorem sub_refl (n : Str) : SubStr n n := ⟨[], [], by simp⟩

theorem subK {n s : Str} {c : Char} (h : SubStr n (c :: s)) :
    n = [] ∨ (∃ n', n = c :: n') ∨ SubStr n s := by
  rcases (sub_cons_iff n s c).1 h with ⟨t, ht⟩ | hs
  · match n with
    | [] => exact Or.inl rfl
    | x :: n' =>
      simp only [List.cons_append, List.cons.injEq] at ht
      exact Or.inr (Or.inl ⟨n', by rw [ht.1]⟩)
  · exact Or.inr (Or.inr hs)

theorem pre_of_pre_len : ∀ a b s : Str, PreStr a s → PreStr b s →
    a.length ≤ b.length → PreStr a b
  | [], b, s, _, _, _ => ⟨b, rfl⟩
  | x :: a', b, s, ⟨t, hs⟩, hb, hlen => by
    match b with
    | [] => simp at hlen
    | y :: b' =>
      obtain ⟨tb, hsb⟩ := hb
      rw [hs] at hsb
      simp only [List.cons_append, List.cons.injEq] at hsb
      obtain ⟨rfl, hsb⟩ := hsb
      have h1 : PreStr a' (a' ++ t) := ⟨t, rfl⟩
      have h2 : PreStr b' (a' ++ t) := ⟨tb, hsb⟩
      have h3 : a'.length ≤ b'.length := by simpa using hlen
      obtain ⟨u, hu⟩ := pre_of_pre_len a' b' (a' ++ t) h1 h2 h3
      exact ⟨u, by simp [hu]⟩

theorem subS1 : ∀ a : Str, ∀ {n b : Str} {c : Char}, SubStr n (a ++ c :: b) →
    c ∉ n → SubStr n a ∨ SubStr n b
  | [], n, b, c, h, hc => by
    rcases subK (by simpa using h) with rfl | ⟨n', rfl⟩ | hs
    · exact Or.inl ⟨[], [], rfl⟩
    · exact absurd (List.mem_cons_self c n') hc
    · exact Or.inr hs
  | d :: a', n, b, c, h, hc => by
    rcases (sub_cons_iff n (a' ++ c :: b) d).1 (by simpa using h) with ⟨t, ht⟩ | hs
    · match n, hc with
      | [], _ => exact Or.inl ⟨[], d :: a', by simp⟩
      | x :: n', hc =>
        simp only [List.cons_append, List.cons.injEq] at ht
        obtain ⟨rfl, ht⟩ := ht
        by_cases hlen : n'.length ≤ a'.length
        · have h1 : PreStr n' (a' ++ c :: b) := ⟨t, ht⟩
          have h2 : PreStr a' (a' ++ c :: b) := ⟨c :: b, rfl⟩
          obtain ⟨u, hu⟩ := pre_of_pre_len n' a' (a' ++ c :: b) h1 h2 hlen
          exact Or.inl ⟨[], u, by simp [hu]⟩
        · have h1 : PreStr a' (a' ++ c :: b) := ⟨c :: b, rfl⟩
          have h2 : PreStr n' (a' ++ c :: b) := ⟨t, ht⟩
          obtain ⟨v, hv⟩ := pre_of_pre_len a' n' (a' ++ c :: b) h1 h2
            (le_of_lt (not_le.mp hlen))
          match v, hv with
          | [], hv =>
            rw [hv] at hlen
            simp at hlen
          | w :: v', hv =>
            rw [hv] at ht
            rw [List.append_assoc] at ht
            have hwc := List.append_cancel_left ht
            simp only [List.cons_append, List.cons.injEq] at hwc
            obtain ⟨rfl, -⟩ := hwc
            exact absurd (by simp [hv] : c ∈ d :: n') hc
    · rcases subS1 a' hs hc with h1 | h2
      · exact Or.inl (sub_cons_of d h1)
      · exact Or.inr h2

theorem subS2 : ∀ m : Str, ∀ {n b : Str}, n ≠ [] → (∀ c ∈ m, c ∉ n) →
    SubStr n (m ++ b) → SubStr n b
  | [], n, b, _, _, h => by simpa using h
  | c :: m', n, b, hne, hm, h => by
    have h' : SubStr n ([] ++ c :: (m' ++ b)) := by simpa using h
    rcases subS1 [] h' (hm c (by simp)) with h1 | h2
    · exact absurd ((sub_nil_iff n).1 h1) hne
    · exact subS2 m' hne (fun x hx => hm x (by simp [hx])) h2

theorem notSub_around {n a b : Str} (m : Str) (hne : n ≠ []) (hm : m ≠ [])
    (hdisj : ∀ c ∈ m, c ∉ n) (ha : ¬ SubStr n a) (hb : ¬ SubStr n b) :
    ¬ SubStr n (a ++ m ++ b) := by
  intro h
  match m, hm with
  | c :: m', _ =>
    have h' : SubStr n (a ++ c :: (m' ++ b)) := by simpa using h
    rcases subS1 a h' (hdisj c (by simp)) with h1 | h2
    · exact ha h1
    · exact hb (subS2 m' hne (fun x hx => hdisj x (by simp [hx])) h2)

theorem subB_iff : ∀ s n : Str, subB n s = true ↔ SubStr n s
  | [], n => by
    simp only [subB, List.isEmpty_iff, sub_nil_iff]
  | c :: rest, n => by
    simp only [subB, Bool.or_eq_true, preB_iff, subB_iff rest, sub_cons_iff]

theorem notSub_of_subB_false {n s : Str} (h : subB n s = false) : ¬ SubStr n s := by
  intro hs
  rw [(subB_iff s n).2 hs] at h
  cases h

/-!  Helper lemmas: splitting and joining lines. -/

theorem splitLines_ne_nil (s : Str) : splitLines s ≠ [] := by
  match s with
  | [] => simp [splitLines]
  | c :: rest =>
    simp only [splitLines]
    split <;> simp

theorem joinLines_cons₂ (l l' : Str) (ls : List Str) :
    joinLines (l :: l' :: ls) = l ++ '\n' :: joinLines (l' :: ls) := rfl

theorem mem_of_mem_tail {l : List α} {a : α} (h : a ∈ l.tail) : a ∈ l := by
  match l with
  | [] => simp at h
  | x :: xs => exact List.mem_cons_of_mem x h

theorem headI_mem {l : List Str} (h : l ≠ []) : l.headI ∈ l := by
  match l with
  | [] => exact absurd rfl h
  | x :: xs => simp

theorem mem_splitLines_no_newline : ∀ s : Str, ∀ l ∈ splitLines s, '\n' ∉ l
  | [], l, hl => by
    simp [splitLines] at hl
    simp [hl]
  | c :: rest, l, hl => by
    by_cases hc : c = '\n'
    · rw [splitLines, if_pos hc] at hl
      rcases List.mem_cons.mp hl with rfl | h
      · simp
      · exact mem_splitLines_no_newline rest l h
    · rw [splitLines, if_neg hc] at hl
      rcases List.mem_cons.mp hl with rfl | h
      · intro hmem
        rcases List.mem_cons.mp hmem with h1 | h2
        · exact hc h1.symm
        · exact mem_splitLines_no_newline rest _ (headI_mem (splitLines_ne_nil rest)) h2
      · exact mem_splitLines_no_newline rest l (mem_of_mem_tail h)

theorem mem_splitLines_chars : ∀ s : Str, ∀ l ∈ splitLines s, ∀ c ∈ l, c ∈ s
  | [], l, hl, c, hc => by
    simp [splitLines] at hl
    subst hl
    simp at hc
  | c0 :: rest, l, hl, c, hc => by
    by_cases h0 : c0 = '\n'
    · rw [splitLines, if_pos h0] at hl
      rcases List.mem_cons.mp hl with rfl | h
      · simp at hc
      · exact List.mem_cons_of_mem c0 (mem_splitLines_chars rest l h c hc)
    · rw [splitLines, if_neg h0] at hl
      rcases List.mem_cons.mp hl with rfl | h
      · rcases List.mem_cons.mp hc with rfl | h2
        · simp
        · exact List.mem_cons_of_mem c0
            (mem_splitLines_chars rest _ (headI_mem (splitLines_ne_nil rest)) c h2)
      · exact List.mem_cons_of_mem c0
          (mem_splitLines_chars rest l (mem_of_mem_tail h) c hc)

theorem splitLines_append_newline : ∀ a b : Str,
    splitLines (a ++ '\n' :: b) = splitLines a ++ splitLines b
  | [], b => by simp [splitLines]
  | c :: a', b => by
    by_cases hc : c = '\n'
    · subst hc
      show splitLines ('\n' :: (a' ++ '\n' :: b)) = _
      rw [splitLines, if_pos rfl, splitLines_append_newline a' b]
      rw [splitLines, if_pos rfl]
      simp
    · show splitLines (c :: (a' ++ '\n' :: b)) = _
      rw [splitLines, if_neg hc, splitLines_append_newline a' b]
      conv_rhs => rw [splitLines, if_neg hc]
      obtain ⟨h, t, hht⟩ : ∃ h t, splitLines a' = h :: t :=
        List.exists_cons_of_ne_nil (splitLines_ne_nil a')
      rw [hht]
      simp

theorem splitLines_of_no_newline : ∀ s : Str, '\n' ∉ s → splitLines s = [s]
  | [], _ => rfl
  | c :: rest, h => by
    have hc : ¬ c = '\n' := fun hc => h (by simp [hc])
    rw [splitLines, if_neg hc, splitLines_of_no_newline rest (fun hm => h (by simp [hm]))]
    simp

theorem splitLines_joinLines : ∀ ls : List Str, ls ≠ [] →
    (∀ l ∈ ls, '\n' ∉ l) → splitLines (joinLines ls) = ls
  | [], h, _ => absurd rfl h
  | [l], _, hnl => by
    show splitLines l = [l]
    exact splitLines_of_no_newline l (hnl l (by simp))
  | l :: l' :: ls, _, hnl => by
    rw [joinLines_cons₂, splitLines_append_newline,
      splitLines_of_no_newline l (hnl l (by simp)),
      splitLines_joinLines (l' :: ls) (by simp) (fun x hx => hnl x (by simp [hx]))]
    simp

theorem sub_joinLines_mem : ∀ parts : List Str, ∀ p ∈ parts,
    SubStr p (joinLines parts)
  | [], p, hp => by simp at hp
  | l :: ls, p, hp => by
    rcases List.mem_cons.mp hp with rfl | h
    · match ls with
      | [] => exact sub_refl p
      | l' :: ls' => exact ⟨[], '\n' :: joinLines (l' :: ls'), by simp [joinLines_cons₂]⟩
    · match ls with
      | [] => simp at h
      | l' :: ls' =>
        have := sub_joinLines_mem (l' :: ls') p h
        rw [joinLines_cons₂]
        have h2 := sub_append_left (l ++ ['\n']) this
        simpa using h2

theorem sub_joinLines_split : ∀ parts : List Str, ∀ {n : Str}, n ≠ [] →
    '\n' ∉ n → SubStr n (joinLines parts) → ∃ p ∈ parts, SubStr n p
  | [], n, hne, _, h => by
    rw [show joinLines [] = [] from rfl] at h
    exact absurd ((sub_nil_iff n).1 h) hne
  | [l], _, _, _, h => ⟨l, by simp, h⟩
  | l :: l' :: ls, n, hne, hnl, h => by
    rw [joinLines_cons₂] at h
    rcases subS1 l h hnl with h1 | h2
    · exact ⟨l, by simp, h1⟩
    · obtain ⟨p, hp, hsub⟩ := sub_joinLines_split (l' :: ls) hne hnl h2
      exact ⟨p, by simp [hp], hsub⟩

/-!  Helper lemmas: strip, digits, the skip marker. -/

theorem dropWhile_append_single {p : Char → Bool} {c : Char} (hc : p c = false) :
    ∀ xs : Str, List.dropWhile p (xs ++ [c]) = List.dropWhile p xs ++ [c]
  | [] => by simp [List.dropWhile, hc]
  | x :: xs => by
    by_cases hx : p x
    · simp only [List.cons_append, List.dropWhile_cons_of_pos hx]
      exact dropWhile_append_single hc xs
    · simp [List.dropWhile_cons_of_neg (by simpa using hx)]

theorem strip_cons_not_space {c : Char} (s : Str) (hc : isPySpace c = false) :
    ∃ t, strip (c :: s) = c :: t := by
  refine ⟨(List.dropWhile isPySpace s.reverse).reverse, ?_⟩
  unfold strip
  rw [List.dropWhile_cons_of_neg (by simp [hc])]
  rw [show (c :: s).reverse = s.reverse ++ [c] by simp]
  rw [dropWhile_append_single hc s.reverse]
  simp

theorem strip_eq_nil_iff (s : Str) : strip s = [] ↔ ∀ c ∈ s, isPySpace c := by
  unfold strip
  constructor
  · intro h c hc
    rw [List.reverse_eq_nil_iff, List.dropWhile_eq_nil_iff] at h
    conv at hc => rw [← List.takeWhile_append_dropWhile (p := isPySpace) (l := s)]
    rcases List.mem_append.mp hc with h1 | h2
    · exact List.mem_takeWhile_imp h1
    · exact h c (by simpa using h2)
  · intro h
    have h1 : List.dropWhile isPySpace s = [] :=
      List.dropWhile_eq_nil_iff.mpr (fun c hc => h c hc)
    rw [h1]
    rfl

theorem strip_nil_of_all_space {s : Str} (h : ∀ c ∈ s, isPySpace c) : strip s = [] :=
  (strip_eq_nil_iff s).mpr h

theorem digitChar_mem {n : Nat} (h : n < 10) :
    digitToChar n ∈ "0123456789".toList := by
  interval_cases n <;> decide

theorem natToStrAux_chars : ∀ (fuel n : Nat), ∀ c ∈ natToStrAux fuel n,
    c ∈ "0123456789".toList
  | 0, n => by simp [natToStrAux]
  | fuel + 1, n => by
    intro c hc
    by_cases h : n < 10
    · rw [natToStrAux, if_pos h] at hc
      rw [List.mem_singleton.mp hc]
      exact digitChar_mem h
    · rw [natToStrAux, if_neg h] at hc
      rcases List.mem_append.mp hc with h1 | h2
      · exact natToStrAux_chars fuel (n / 10) c h1
      · rw [List.mem_singleton.mp h2]
        exact digitChar_mem (Nat.mod_lt _ (by omega))

theorem natToStr_chars (n : Nat) : ∀ c ∈ natToStr n, c ∈ "0123456789".toList :=
  natToStrAux_chars (n + 1) n

theorem natToStr_ne_nil (n : Nat) : natToStr n ≠ [] := by
  rw [natToStr, natToStrAux]
  split <;> simp

theorem digit_not_newline {c : Char} (h : c ∈ "0123456789".toList) : ¬ c = '\n' := by
  fin_cases h <;> decide

theorem digit_notin_err {c : Char} (h : c ∈ "0123456789".toList) : c ∉ errTok := by
  fin_cases h <;> decide

theorem natToStr_no_newline (n : Nat) : '\n' ∉ natToStr n := by
  intro h
  exact digit_not_newline (natToStr_chars n '\n' h) rfl

theorem skipMarker_no_newline {line : Str} (n : Nat) (h : '\n' ∉ line) :
    '\n' ∉ skipMarker n line := by
  intro hmem
  unfold skipMarker at hmem
  rcases List.mem_append.mp hmem with h1 | h2
  · rcases List.mem_append.mp h1 with h3 | h4
    · rcases List.mem_append.mp h3 with h5 | h6
      · exact absurd h5 (by decide)
      · exact natToStr_no_newline n h6
    · exact absurd h4 (by decide)
  · exact h h2

theorem skipMarker_hash (n : Nat) (line : Str) :
    startsWithHash (strip (skipMarker n line)) = true := by
  have hshape : skipMarker n line =
      '#' :: (" SKIPPED POTENTIALLY UNSAFE COMMAND (line ".toList ++ natToStr n
        ++ "): ".toList ++ line) := by
    unfold skipMarker
    simp
  rw [hshape]
  obtain ⟨t, ht⟩ := strip_cons_not_space _ (by decide : isPySpace '#' = false)
  rw [ht]
  rfl

/-!  Helper lemmas: the safety filter's loop. -/

theorem withIdx_length : ∀ (ls : List α) (i : Nat), (withIdx i ls).length = ls.length
  | [], _ => rfl
  | _ :: as, i => by simp [withIdx, withIdx_length as (i + 1)]

theorem filterAux_map : ∀ (ls : List Str) (i : Nat),
    filterAux i ls =
      ((withIdx i ls).map fun p =>
        if (strip p.2).isEmpty || startsWithHash (strip p.2) then p.2
        else if is_safe_command p.2 then p.2
        else skipMarker (p.1 + 1) p.2,
       ((withIdx i ls).filter fun p =>
         !((strip p.2).isEmpty || startsWithHash (strip p.2))
           && !is_safe_command p.2).map
         fun p => (p.1 + 1, p.2))
  | [], i => by simp [filterAux, withIdx]
  | line :: rest, i => by
    simp only [filterAux, withIdx, List.map_cons, List.filter_cons]
    rw [filterAux_map rest (i + 1)]
    by_cases h1 : ((strip line).isEmpty || startsWithHash (strip line)) = true
    · simp [h1]
    · by_cases h2 : is_safe_command line = true
      · simp [h1, h2]
      · simp [h1, h2]

theorem filterAux_fst_length (ls : List Str) (i : Nat) :
    (filterAux i ls).1.length = ls.length := by
  rw [filterAux_map]
  simp [withIdx_length]

theorem filteredPass : ∀ (ls : List Str) (i : Nat), ∀ l ∈ (filterAux i ls).1,
    (strip l).isEmpty = true ∨ startsWithHash (strip l) = true
      ∨ is_safe_command l = true
  | [], _, l, hl => by simp [filterAux] at hl
  | line :: rest, i, l, hl => by
    by_cases h1 : ((strip line).isEmpty || startsWithHash (strip line)) = true
    · rw [filterAux, if_pos h1] at hl
      rcases List.mem_cons.mp hl with rfl | h
      · rcases Bool.or_eq_true _ _ |>.mp h1 with h2 | h3
        · exact Or.inl h2
        · exact Or.inr (Or.inl h3)
      · exact filteredPass rest (i + 1) l h
    · by_cases h2 : is_safe_command line = true
      · rw [filterAux, if_neg h1, if_pos h2] at hl
        rcases List.mem_cons.mp hl with rfl | h
        · exact Or.inr (Or.inr h2)
        · exact filteredPass rest (i + 1) l h
      · rw [filterAux, if_neg h1, if_neg h2] at hl
        rcases List.mem_cons.mp hl with rfl | h
        · exact Or.inr (Or.inl (skipMarker_hash (i + 1) line))
        · exact filteredPass rest (i + 1) l h

theorem filterAux_no_newline : ∀ (ls : List Str) (i : Nat),
    (∀ l ∈ ls, '\n' ∉ l) → ∀ l ∈ (filterAux i ls).1, '\n' ∉ l
  | [], _, _, l, hl => by simp [filterAux] at hl
  | line :: rest, i, hnl, l, hl => by
    have hline : '\n' ∉ line := hnl line (by simp)
    have hrest : ∀ x ∈ rest, '\n' ∉ x := fun x hx => hnl x (by simp [hx])
    by_cases h1 : ((strip line).isEmpty || startsWithHash (strip line)) = true
    · rw [filterAux, if_pos h1] at hl
      rcases List.mem_cons.mp hl with rfl | h
      · exact hline
      · exact filterAux_no_newline rest (i + 1) hrest l h
    · by_cases h2 : is_safe_command line = true
      · rw [filterAux, if_neg h1, if_pos h2] at hl
        rcases List.mem_cons.mp hl with rfl | h
        · exact hline
        · exact filterAux_no_newline rest (i + 1) hrest l h
      · rw [filterAux, if_neg h1, if_neg h2] at hl
        rcases List.mem_cons.mp hl with rfl | h
        · exact skipMarker_no_newline (i + 1) hline
        · exact filterAux_no_newline rest (i + 1) hrest l h

theorem filterAux_second_pass : ∀ (ls : List Str) (i : Nat),
    (∀ l ∈ ls, (strip l).isEmpty = true ∨ startsWithHash (strip l) = true
      ∨ is_safe_command l = true) →
    filterAux i ls = (ls, [])
  | [], _, _ => rfl
  | line :: rest, i, hpass => by
    have hrest := filterAux_second_pass rest (i + 1)
      (fun x hx => hpass x (by simp [hx]))
    by_cases h1 : ((strip line).isEmpty || startsWithHash (strip line)) = true
    · rw [filterAux, if_pos h1, hrest]
    · have h2 : is_safe_command line = true := by
        rcases hpass line (by simp) with h | h | h
        · exact absurd (by simp [h]) h1
        · exact absurd (by simp [h]) h1
        · exact h
      rw [filterAux, if_neg h1, if_pos h2, hrest]

theorem splitLines_filter_commands (s : Str) :
    splitLines (filter_commands s).1 = (filterAux 0 (splitLines s)).1 := by
  have hnn : ∀ l ∈ (filterAux 0 (splitLines s)).1, '\n' ∉ l :=
    filterAux_no_newline (splitLines s) 0 (mem_splitLines_no_newline s)
  have hne : (filterAux 0 (splitLines s)).1 ≠ [] := by
    intro h
    have := filterAux_fst_length (splitLines s) 0
    rw [h] at this
    exact splitLines_ne_nil s (List.length_eq_zero.mp this.symm)
  exact splitLines_joinLines _ hne hnn

/-- C3: for every input string, `filter_commands` returns filtered text with
the same number of newline-split lines as the input; blank lines and comment
lines pass through unchanged; each unsafe line at 1-based position N is
replaced in place by the exact marker `skipMarker N line`; and the skipped
list holds exactly the pairs (N, original line) of the replaced lines, in
line order. -/
theorem c3_filter_preserves_lines (s : Str) :
    (splitLines (filter_commands s).1).length = (splitLines s).length
    ∧ splitLines (filter_commands s).1 =
      ((withIdx 0 (splitLines s)).map fun p =>
        if (strip p.2).isEmpty || startsWithHash (strip p.2) then p.2
        else if is_safe_command p.2 then p.2
        else skipMarker (p.1 + 1) p.2)
    ∧ (filter_commands s).2 =
      (((withIdx 0 (splitLines s)).filter fun p =>
         !((strip p.2).isEmpty || startsWithHash (strip p.2))
           && !is_safe_command p.2).map
        fun p => (p.1 + 1, p.2)) := by
  refine ⟨?_, ?_, ?_⟩
  · rw [splitLines_filter_commands s]
    exact filterAux_fst_length (splitLines s) 0
  · rw [splitLines_filter_commands s]
    rw [filterAux_map (splitLines s) 0]
  · show (filterAux 0 (splitLines s)).2 = _
    rw [filterAux_map (splitLines s) 0]

/-- C9: `filter_commands` is idempotent — filtering the filtered text again
changes nothing and skips nothing, because every replacement marker starts
with `#` and passes through as a comment. -/
theorem c9_filter_idempotent (s : Str) :
    filter_commands (filter_commands s).1 = ((filter_commands s).1, []) := by
  show (joinLines (filterAux 0 (splitLines (filter_commands s).1)).1,
        (filterAux 0 (splitLines (filter_commands s).1)).2) = _
  rw [splitLines_filter_commands s]
  rw [filterAux_second_pass _ 0 (filteredPass (splitLines s) 0)]
  rfl

/-- C10: every line of the filtered text that is non-blank and not a comment
after stripping satisfies `is_safe_command` — the filtered text contains no
executable line the denylist classifies as unsafe. -/
theorem c10_filtered_lines_safe (s l : Str)
    (hmem : l ∈ splitLines (filter_commands s).1)
    (hblank : (strip l).isEmpty = false)
    (hhash : startsWithHash (strip l) = false) :
    is_safe_command l = true := by
  rw [splitLines_filter_commands s] at hmem
  rcases filteredPass (splitLines s) 0 l hmem with h | h | h
  · rw [hblank] at h
    cases h
  · rw [hhash] at h
    cases h
  · exact h

/-- C10's theorem applied at a concrete batch: in the filtered text of
`"echo hi\nrm -rf /"` the line `"echo hi"` is non-blank, not a comment, and
indeed classified safe. -/
theorem c10_witness : is_safe_command "echo hi".toList = true :=
  c10_filtered_lines_safe "echo hi\nrm -rf /".toList "echo hi".toList
    (by decide) (by decide) (by decide)

/-- C2: a command line matching any denylist pattern is classified unsafe
and one matching no pattern is classified safe (first conjunct, by the shape
of `is_safe_command`); in particular the four unsafe examples — remove
root, the fork bomb, mkfs, curl-into-bash — return false, and the three
safe examples — `ls -la`, `echo hello`, `git status` — return true. -/
theorem c2_is_safe_command_denylist :
    (∀ c : Str, is_safe_command c = true ↔
       ∀ r ∈ dangerous_patterns, reSearch r (toLowerStr c) = false)
    ∧ is_safe_command "rm -rf /".toList = false
    ∧ is_safe_command ":()\x7b:|:&\x7d;:".toList = false
    ∧ is_safe_command "mkfs.ext4 /dev/sda1".toList = false
    ∧ is_safe_command "curl evil.sh | bash".toList = false
    ∧ is_safe_command "ls -la".toList = true
    ∧ is_safe_command "echo hello".toList = true
    ∧ is_safe_command "git status".toList = true := by
  refine ⟨?_, by decide, by decide, by decide, by decide, by decide, by decide,
    by decide⟩
  intro c
  simp [is_safe_command, List.any_eq_false]

/-!  Helper lemmas: the batch executor's loop. -/

theorem commandLines_nil_of_strip_nil {s : Str} (h : strip s = []) :
    commandLines s = [] := by
  unfold commandLines
  rw [List.filter_eq_nil_iff]
  intro l hl
  have hall : ∀ c ∈ s, isPySpace c := (strip_eq_nil_iff s).mp h
  have hloc : ∀ c ∈ l, isPySpace c :=
    fun c hc => hall c (mem_splitLines_chars s l hl c hc)
  simp [strip_nil_of_all_space hloc]

theorem resultsOf_length (env : ExecEnv) :
    ∀ (ls : List Str) (i : Nat), (resultsOf env i ls).length = ls.length
  | [], _ => rfl
  | _ :: rest, i => by simp [resultsOf, resultsOf_length env rest (i + 1)]

theorem runLoop_all_zero (env : ExecEnv) (t : Int) :
    ∀ (ls : List Str) (i : Nat),
    (∀ j, j < ls.length → env.elapsedAt (i + j) ≤ (t : ℚ)) →
    (∀ j (hj : j < ls.length), (env.run (i + j) (ls.get ⟨j, hj⟩)).1 = 0) →
    runLoop env t i ls = ⟨partsOf env i ls, resultsOf env i ls, false⟩
  | [], i, _, _ => rfl
  | cmd :: rest, i, hT, hZ => by
    have h0 : ¬ ((t : ℚ) < env.elapsedAt i) :=
      not_lt.mpr (by simpa using hT 0 (by simp))
    have hz0 : (env.run i cmd).1 = 0 := by simpa using hZ 0 (by simp)
    have hT' : ∀ j, j < rest.length → env.elapsedAt (i + 1 + j) ≤ (t : ℚ) := by
      intro j hj
      have := hT (j + 1) (by simpa using Nat.succ_lt_succ hj)
      rwa [show i + (j + 1) = i + 1 + j by omega] at this
    have hZ' : ∀ j (hj : j < rest.length),
        (env.run (i + 1 + j) (rest.get ⟨j, hj⟩)).1 = 0 := by
      intro j hj
      have := hZ (j + 1) (by simpa using Nat.succ_lt_succ hj)
      rwa [show i + (j + 1) = i + 1 + j by omega] at this
    rw [runLoop, if_neg h0, if_neg (by simp [hz0]),
      runLoop_all_zero env t rest (i + 1) hT' hZ']
    simp only [partsOf, resultsOf]

theorem runLoop_results_le (env : ExecEnv) (t : Int) :
    ∀ (ls : List Str) (i : Nat), (runLoop env t i ls).results.length ≤ ls.length
  | [], _ => by simp [runLoop]
  | cmd :: rest, i => by
    rw [runLoop]
    split
    · simp
    · split
      · simp
      · simpa using runLoop_results_le env t rest (i + 1)

theorem runLoop_results_get (env : ExecEnv) (t : Int) :
    ∀ (ls : List Str) (i k : Nat) (r : Str × Int × Str),
    (runLoop env t i ls).results.get? k = some r → ls.get? k = some r.1
  | [], _, k, r => by simp [runLoop]
  | cmd :: rest, i, k, r => by
    rw [runLoop]
    split
    · simp
    · split
      · match k with
        | 0 =>
          intro h
          simp only [List.get?] at h ⊢
          injection h with h
          rw [← h]
        | k + 1 => simp
      · match k with
        | 0 =>
          intro h
          simp only [List.get?] at h ⊢
          injection h with h
          rw [← h]
        | k + 1 =>
          intro h
          simp only [List.get?] at h ⊢
          exact runLoop_results_get env t rest (i + 1) k r h

theorem runLoop_timeout_le (env : ExecEnv) (t : Int) :
    ∀ (ls : List Str) (i k : Nat), i ≤ k → (t : ℚ) < env.elapsedAt k →
    (runLoop env t i ls).results.length ≤ k - i
  | [], _, _, _, _ => by simp [runLoop]
  | cmd :: rest, i, k, hik, hk => by
    rw [runLoop]
    split
    · simp
    · rename_i hno
      have hne : i ≠ k := fun h => hno (h ▸ hk)
      split
      · simp
        omega
      · have := runLoop_timeout_le env t rest (i + 1) k (by omega) hk
        simp only [List.length_cons]
        omega

theorem partsOf_mem (env : ExecEnv) :
    ∀ (ls : List Str) (i : Nat), ∀ p ∈ partsOf env i ls,
    ∃ j, ∃ (hj : j < ls.length),
      p = cmdHeader (i + j + 1) (ls.get ⟨j, hj⟩)
      ∨ p = (env.run (i + j) (ls.get ⟨j, hj⟩)).2
  | [], _, p, hp => by simp [partsOf] at hp
  | cmd :: rest, i, p, hp => by
    rw [partsOf] at hp
    rcases List.mem_cons.mp hp with rfl | hp'
    · exact ⟨0, by simp, Or.inl (by simp)⟩
    · rcases List.mem_cons.mp hp' with rfl | hp''
      · exact ⟨0, by simp, Or.inr (by simp)⟩
      · obtain ⟨j, hj, hor⟩ := partsOf_mem env rest (i + 1) p hp''
        refine ⟨j + 1, by simpa using Nat.succ_lt_succ hj, ?_⟩
        rcases hor with h | h
        · exact Or.inl (by rw [h]; congr 1; omega)
        · exact Or.inr (by rw [h]; congr 2; omega)

theorem runLoop_fail_fast (env : ExecEnv) (t : Int) :
    ∀ (ls : List Str) (i k : Nat) (hk : k < ls.length),
    (∀ j, j ≤ k → env.elapsedAt (i + j) ≤ (t : ℚ)) →
    (∀ j (hj : j < k), (env.run (i + j) (ls.get ⟨j, lt_trans hj hk⟩)).1 = 0) →
    (env.run (i + k) (ls.get ⟨k, hk⟩)).1 ≠ 0 →
    runLoop env t i ls =
      ⟨partsOf env i (ls.take k) ++
         [cmdHeader (i + k + 1) (ls.get ⟨k, hk⟩),
          (env.run (i + k) (ls.get ⟨k, hk⟩)).2,
          failMsg (env.run (i + k) (ls.get ⟨k, hk⟩)).1],
       resultsOf env i (ls.take k) ++
         [(ls.get ⟨k, hk⟩, env.run (i + k) (ls.get ⟨k, hk⟩))],
       true⟩
  | [], _, k, hk, _, _, _ => absurd hk (by simp)
  | cmd :: rest, i, 0, hk, hT, _, hfail => by
    have h0 : ¬ ((t : ℚ) < env.elapsedAt i) :=
      not_lt.mpr (by simpa using hT 0 (le_refl 0))
    rw [runLoop, if_neg h0, if_pos (show (env.run i cmd).1 ≠ 0 by simpa using hfail)]
    simp [partsOf, resultsOf]
  | cmd :: rest, i, k + 1, hk, hT, hZ, hfail => by
    have h0 : ¬ ((t : ℚ) < env.elapsedAt i) :=
      not_lt.mpr (by simpa using hT 0 (Nat.zero_le _))
    have hz0 : (env.run i cmd).1 = 0 := by simpa using hZ 0 (Nat.succ_pos k)
    have hk' : k < rest.length := by simpa using Nat.lt_of_succ_lt_succ hk
    have hT' : ∀ j, j ≤ k → env.elapsedAt (i + 1 + j) ≤ (t : ℚ) := by
      intro j hj
      have := hT (j + 1) (by omega)
      rwa [show i + (j + 1) = i + 1 + j by omega] at this
    have hZ' : ∀ j (hj : j < k),
        (env.run (i + 1 + j) (rest.get ⟨j, lt_trans hj hk'⟩)).1 = 0 := by
      intro j hj
      have := hZ (j + 1) (Nat.succ_lt_succ hj)
      rw [show i + (j + 1) = i + 1 + j by omega] at this
      simpa using this
    have hfail' : (env.run (i + 1 + k) (rest.get ⟨k, hk'⟩)).1 ≠ 0 := by
      have h := hfail
      rw [show i + (k + 1) = i + 1 + k by omega] at h
      simpa using h
    rw [runLoop, if_neg h0, if_neg (not_not_intro hz0),
      runLoop_fail_fast env t rest (i + 1) k hk' hT' hZ' hfail']
    simp [partsOf, resultsOf, List.take_succ_cons,
      show i + 1 + k = i + (k + 1) by omega]

/-!  Helper lemmas: the failure token `"ERROR:"` in transcripts. -/

theorem errHeadNotIn {c : Char} {s : Str} (hc : c ≠ 'E')
    (hs : ¬ SubStr errTok s) : ¬ SubStr errTok (c :: s) := by
  intro h
  rcases subK h with h1 | ⟨n', h2⟩ | h3
  · exact absurd h1 (by decide)
  · have : 'E' :: "RROR:".toList = c :: n' := h2
    simp only [List.cons.injEq] at this
    exact hc this.1.symm
  · exact hs h3

theorem pad2_chars (n : Nat) : ∀ c ∈ pad2 n, c ∈ "0123456789".toList := by
  intro c hc
  unfold pad2 at hc
  split at hc
  · rcases List.mem_cons.mp hc with rfl | h
    · decide
    · exact natToStr_chars n c h
  · exact natToStr_chars n c hc

theorem fmt2f_ne_nil (q : ℚ) : fmt2f q ≠ [] := by
  unfold fmt2f
  intro h
  rcases List.append_eq_nil.mp h with ⟨h1, -⟩
  exact natToStr_ne_nil _ h1

theorem fmt2f_chars (q : ℚ) : ∀ c ∈ fmt2f q, c ∉ errTok := by
  intro c hc
  unfold fmt2f at hc
  rcases List.mem_append.mp hc with h1 | h2
  · exact digit_notin_err (natToStr_chars _ c h1)
  · rcases List.mem_cons.mp h2 with rfl | h3
    · decide
    · exact digit_notin_err (pad2_chars _ c h3)

theorem summaryMsg_no_err (e : ℚ) : ¬ SubStr errTok (summaryMsg e) := by
  unfold summaryMsg
  refine notSub_around (fmt2f e) (by decide) (fmt2f_ne_nil e) (fmt2f_chars e)
    ?_ ?_
  · exact notSub_of_subB_false (by decide)
  · exact notSub_of_subB_false (by decide)

theorem cmdHeader_no_err {cmd : Str} (i : Nat) (h : ¬ SubStr errTok cmd) :
    ¬ SubStr errTok (cmdHeader i cmd) := by
  unfold cmdHeader
  rw [List.append_assoc]
  refine notSub_around (natToStr i) (by decide) (natToStr_ne_nil i)
    (fun c hc => digit_notin_err (natToStr_chars i c hc)) ?_ ?_
  · exact notSub_of_subB_false (by decide)
  · show ¬ SubStr errTok (':' :: ' ' :: cmd)
    exact errHeadNotIn (by decide) (errHeadNotIn (by decide) h)

/-- C1 (amended): for a batch whose commands all exit zero, provided the
timeout is never exceeded at a pre-command check, the outcome is not aborted
and there is exactly one per-command result per non-comment non-blank line —
whatever the commands print; the transcript is additionally free of the
literal `"ERROR:"` under the further condition that no captured command
output and no command line contains that substring (a zero-exit command
that writes to stderr puts `"ERROR:"`-tagged lines into the transcript
while still counting as a non-aborted, fully-counted run). -/
theorem c1_all_zero_success (env : ExecEnv) (commands : Str) (t : Int)
    (hT : ∀ i, i < (commandLines commands).length → env.elapsedAt i ≤ (t : ℚ))
    (hZ : ∀ i (hi : i < (commandLines commands).length),
      (env.run i ((commandLines commands).get ⟨i, hi⟩)).1 = 0) :
    (execute_commands env commands t).2.aborted = false
    ∧ (execute_commands env commands t).2.results.length =
        (commandLines commands).length
    ∧ ((∀ i (hi : i < (commandLines commands).length),
         ¬ SubStr errTok (env.run i ((commandLines commands).get ⟨i, hi⟩)).2) →
       (∀ c ∈ commandLines commands, ¬ SubStr errTok c) →
       ¬ SubStr errTok (execute_commands env commands t).1) := by
  by_cases hstrip : (strip commands).isEmpty = true
  · have hcl : commandLines commands = [] :=
      commandLines_nil_of_strip_nil (List.isEmpty_iff.mp hstrip)
    unfold execute_commands
    rw [if_pos hstrip]
    exact ⟨rfl, by simp [hcl], fun _ _ => notSub_of_subB_false (by decide)⟩
  · unfold execute_commands
    rw [if_neg hstrip]
    have hrw := runLoop_all_zero env t (commandLines commands) 0
      (fun j hj => by simpa using hT j hj)
      (fun j hj => by simpa using hZ j hj)
    rw [hrw]
    refine ⟨rfl, by simp [resultsOf_length], ?_⟩
    intro hOut hCmd hsub
    obtain ⟨p, hp, hpsub⟩ := sub_joinLines_split _ (by decide) (by decide) hsub
    rcases List.mem_append.mp hp with hp1 | hp2
    · obtain ⟨j, hj, hor⟩ := partsOf_mem env _ 0 p hp1
      rcases hor with h | h
      · rw [h] at hpsub
        exact cmdHeader_no_err _ (hCmd _ (List.get_mem _ j hj)) hpsub
      · rw [h] at hpsub
        have := hOut j hj
        rw [show (0 : Nat) + j = j from Nat.zero_add j] at hpsub
        exact this hpsub
    · rw [List.mem_singleton.mp hp2] at hpsub
      exact summaryMsg_no_err env.finalElapsed hpsub

/-- C1, counterexample to the claim as stated.  First scenario: the batch
`"echo oops 1>&2"` is a single safe command; its process exits 0 but writes
one stderr line, which the realtime executor captures as
`"ERROR: oops\n"` — the run is not aborted and records exit code 0, yet the
literal `"ERROR:"` does appear in the returned transcript, refuting the
claimed equivalence.  Second scenario: the safe batch `"echo hi"` whose
commands would all exit 0 is run with a clock already past the 300-second
timeout at the first check: the outcome is aborted despite every exit code
being zero. -/
theorem c1_counterexample :
    (is_safe_command "echo oops 1>&2".toList = true
     ∧ (execute_commands (constEnv 0 0 "ERROR: oops\n".toList)
         "echo oops 1>&2".toList 300).2.aborted = false
     ∧ (execute_commands (constEnv 0 0 "ERROR: oops\n".toList)
         "echo oops 1>&2".toList 300).2.results =
         [("echo oops 1>&2".toList, 0, "ERROR: oops\n".toList)]
     ∧ SubStr errTok
         (execute_commands (constEnv 0 0 "ERROR: oops\n".toList)
           "echo oops 1>&2".toList 300).1)
    ∧ (is_safe_command "echo hi".toList = true
       ∧ (∀ i c, ((constEnv 400 0 []).run i c).1 = 0)
       ∧ (execute_commands (constEnv 400 0 []) "echo hi".toList 300).2.aborted
           = true
       ∧ (execute_commands (constEnv 400 0 []) "echo hi".toList 300).2.results
           = []) := by
  refine ⟨⟨by decide, by decide, by decide, (subB_iff _ _).1 (by decide)⟩,
    by decide, fun i c => rfl, by decide, by decide⟩

/-- C1's amended theorem applied at a concrete input: the one-command batch
`"echo hi"` whose command exits 0 with output `"hi\n"` under a fast clock —
not aborted, one result, no `"ERROR:"` in the transcript. -/
theorem c1_witness :
    (execute_commands (constEnv 0 0 "hi\n".toList) "echo hi".toList 300).2.aborted
        = false
    ∧ (execute_commands (constEnv 0 0 "hi\n".toList)
        "echo hi".toList 300).2.results.length =
        (commandLines "echo hi".toList).length
    ∧ ¬ SubStr errTok
        (execute_commands (constEnv 0 0 "hi\n".toList) "echo hi".toList 300).1 := by
  have h := c1_all_zero_success (constEnv 0 0 "hi\n".toList) "echo hi".toList 300
    (fun i _ => show (0 : ℚ) ≤ ((300 : Int) : ℚ) from by decide)
    (fun i _ => rfl)
  refine ⟨h.1, h.2.1, h.2.2 ?_ ?_⟩
  · exact fun i _ => notSub_of_subB_false
      (show subB errTok "hi\n".toList = false from by decide)
  · intro c hc
    rw [show commandLines "echo hi".toList = ["echo hi".toList] by decide] at hc
    rw [List.mem_singleton.mp hc]
    exact notSub_of_subB_false (by decide)

/-- C4: for every batch, when the loop reaches a command whose exit code is
non-zero (the timeout not yet exceeded and every earlier command having
exited zero), the executor appends that command's header and output followed
by the failure notice naming that exit code, records results for exactly the
commands up to and including the failing one — so no subsequent command ever
runs — and the outcome is aborted (first conjunct); in particular, for the
batch `"echo A\necho B\nexit 1\necho C"` under an adequate timeout, `echo
A`, `echo B` and `exit 1` run in order, the notice names exit code 1, `echo
C` never runs (exactly three results), and the outcome is aborted (second
conjunct). -/
theorem c4_fail_fast :
    (∀ (env : ExecEnv) (commands : Str) (t : Int) (k : Nat)
       (hk : k < (commandLines commands).length),
       (∀ j, j ≤ k → env.elapsedAt j ≤ (t : ℚ)) →
       (∀ j (hj : j < k),
         (env.run j ((commandLines commands).get ⟨j, lt_trans hj hk⟩)).1 = 0) →
       (env.run k ((commandLines commands).get ⟨k, hk⟩)).1 ≠ 0 →
       (execute_commands env commands t).2 =
         ⟨partsOf env 0 ((commandLines commands).take k) ++
            [cmdHeader (k + 1) ((commandLines commands).get ⟨k, hk⟩),
             (env.run k ((commandLines commands).get ⟨k, hk⟩)).2,
             failMsg (env.run k ((commandLines commands).get ⟨k, hk⟩)).1],
          resultsOf env 0 ((commandLines commands).take k) ++
            [((commandLines commands).get ⟨k, hk⟩,
              env.run k ((commandLines commands).get ⟨k, hk⟩))],
          true⟩)
    ∧ (∀ (env : ExecEnv) (t : Int),
       (∀ i, env.elapsedAt i ≤ (t : ℚ)) →
       (env.run 0 "echo A".toList).1 = 0 →
       (env.run 1 "echo B".toList).1 = 0 →
       (env.run 2 "exit 1".toList).1 = 1 →
       (execute_commands env "echo A\necho B\nexit 1\necho C".toList t).2 =
         ⟨[cmdHeader 1 "echo A".toList, (env.run 0 "echo A".toList).2,
           cmdHeader 2 "echo B".toList, (env.run 1 "echo B".toList).2,
           cmdHeader 3 "exit 1".toList, (env.run 2 "exit 1".toList).2,
           failMsg 1],
          [("echo A".toList, env.run 0 "echo A".toList),
           ("echo B".toList, env.run 1 "echo B".toList),
           ("exit 1".toList, env.run 2 "exit 1".toList)],
          true⟩
       ∧ failMsg 1 ∈
           (execute_commands env
             "echo A\necho B\nexit 1\necho C".toList t).2.parts) := by
  constructor
  · intro env commands t k hk hT hZ hfail
    have hne : commandLines commands ≠ [] := by
      intro h
      rw [h] at hk
      simp at hk
    have hstrip : ¬ ((strip commands).isEmpty = true) := fun h =>
      hne (commandLines_nil_of_strip_nil (List.isEmpty_iff.mp h))
    have hres := runLoop_fail_fast env t (commandLines commands) 0 k hk
      (fun j hj => by simpa using hT j hj)
      (fun j hj => by simpa using hZ j hj)
      (by simpa using hfail)
    simp only [Nat.zero_add] at hres
    show (if (strip commands).isEmpty then _ else _ : Str × BatchState).2 = _
    rw [if_neg hstrip]
    exact hres
  · intro env t hT h0 h1 h2
    have hcl : commandLines "echo A\necho B\nexit 1\necho C".toList =
        ["echo A".toList, "echo B".toList, "exit 1".toList, "echo C".toList] := by
      decide
    unfold execute_commands
    rw [if_neg (by decide), hcl]
    rw [runLoop, if_neg (not_lt.mpr (hT 0)), if_neg (not_not_intro h0)]
    rw [runLoop, if_neg (not_lt.mpr (hT 1)), if_neg (not_not_intro h1)]
    rw [runLoop, if_neg (not_lt.mpr (hT 2)),
      if_pos (show (env.run 2 "exit 1".toList).1 ≠ 0 from by rw [h2]; decide), h2]
    exact ⟨rfl, by simp⟩

/-- C4's theorem applied at a concrete oracle whose third command fails with
exit code 1: the batch aborts. -/
theorem c4_witness :
    (execute_commands failAt2Env "echo A\necho B\nexit 1\necho C".toList
      300).2.aborted = true :=
  congrArg BatchState.aborted
    (c4_fail_fast.2 failAt2Env 300
      (fun _ => show (0 : ℚ) ≤ ((300 : Int) : ℚ) from by decide)
      (by decide) (by decide) (by decide)).1

/-- C5: in every batch run each command acquires at most one execution
result and results correspond index-wise to the batch's commands, so the
result sequence is never longer than the list of non-comment non-blank
command lines (first two conjuncts) and can be strictly shorter (third
conjunct: a batch of two commands whose first one fails records a single
result). -/
theorem c5_results_invariant :
    (∀ (env : ExecEnv) (commands : Str) (t : Int),
      (execute_commands env commands t).2.results.length ≤
        (commandLines commands).length)
    ∧ (∀ (env : ExecEnv) (commands : Str) (t : Int) (k : Nat)
        (r : Str × Int × Str),
        (execute_commands env commands t).2.results.get? k = some r →
        (commandLines commands).get? k = some r.1)
    ∧ (∃ (env : ExecEnv) (commands : Str) (t : Int),
        (execute_commands env commands t).2.results.length <
          (commandLines commands).length) := by
  refine ⟨?_, ?_, ?_⟩
  · intro env commands t
    unfold execute_commands
    split
    · simp
    · simpa using runLoop_results_le env t (commandLines commands) 0
  · intro env commands t k r h
    unfold execute_commands at h
    split at h
    · simp at h
    · exact runLoop_results_get env t (commandLines commands) 0 k r h
  · exact ⟨constEnv 0 1 [], "a\nb".toList, 300, by decide⟩

/-- C6: with `timeoutSeconds = 0` and a batch holding at least one command,
the very first pre-command check (at any strictly positive clock reading)
aborts the batch before any command runs, appending the timeout notice to
the transcript; and in general the elapsed-versus-timeout check bounds the
number of commands run: once the clock exceeds the timeout at check `k`, at
most `k` commands ever ran. -/
theorem c6_timeout_zero (env : ExecEnv) (commands : Str)
    (hne : commandLines commands ≠ [])
    (hpos : 0 < env.elapsedAt 0) :
    (execute_commands env commands 0).2 = ⟨[timeoutMsg 0], [], true⟩
    ∧ SubStr (timeoutMsg 0) (execute_commands env commands 0).1
    ∧ (∀ (env' : ExecEnv) (c : Str) (t : Int) (k : Nat),
        (t : ℚ) < env'.elapsedAt k →
        (execute_commands env' c t).2.results.length ≤ k) := by
  have hstrip : ¬ ((strip commands).isEmpty = true) := by
    intro h
    exact hne (commandLines_nil_of_strip_nil (List.isEmpty_iff.mp h))
  obtain ⟨c0, rest, hcl⟩ := List.exists_cons_of_ne_nil hne
  have hloop : runLoop env 0 0 (commandLines commands) =
      ⟨[timeoutMsg 0], [], true⟩ := by
    rw [hcl, runLoop, if_pos (by simpa using hpos)]
  refine ⟨?_, ?_, ?_⟩
  · show (if (strip commands).isEmpty then _ else _ : Str × BatchState).2 = _
    rw [if_neg hstrip, hloop]
  · show SubStr (timeoutMsg 0)
      (if (strip commands).isEmpty then _ else _ : Str × BatchState).1
    rw [if_neg hstrip, hloop]
    exact sub_joinLines_mem _ _ (by simp)
  · intro env' c t k hk
    unfold execute_commands
    split
    · simp
    · simpa using runLoop_timeout_le env' t (commandLines c) 0 k (Nat.zero_le k) hk

/-- C6's theorem applied at a concrete input: the batch `"echo hi"` with
timeout 0 under a clock reading 1 second aborts at the first check with the
timeout notice and no results. -/
theorem c6_witness :
    (execute_commands (constEnv 1 0 []) "echo hi".toList 0).2 =
      ⟨[timeoutMsg 0], [], true⟩ :=
  (c6_timeout_zero (constEnv 1 0 []) "echo hi".toList (by decide) (by decide)).1

/-- C7: for empty or whitespace-only input, `execute_commands` returns the
"nothing to execute" message with no parts, no results and no abort — the
same value for every oracle, so no command is ever run and no process
spawned; this outcome is not an error. -/
theorem c7_empty_input (env : ExecEnv) (commands : Str) (t : Int)
    (h : strip commands = []) :
    execute_commands env commands t =
      ("No commands to execute.".toList, ⟨[], [], false⟩) := by
  unfold execute_commands
  rw [if_pos (by simp [h])]

/-- C7's theorem applied at the whitespace-only input `"  \n "`. -/
theorem c7_witness :
    execute_commands (constEnv 0 0 []) "  \n ".toList 300 =
      ("No commands to execute.".toList, ⟨[], [], false⟩) :=
  c7_empty_input (constEnv 0 0 []) "  \n ".toList 300 (by decide)

/-- C8 (refuted by a schedule of the code's own polling loop): the claim
says every line a process writes appears in the returned transcript exactly
once under every interleaving, and the spec's step 6 (join both readers
before returning) is said to guarantee it.  The code joins the readers but
never drains the queues again after the loop's break check, so the
following interleaving loses a line: the process writes one stdout line
`"hello"` and exits; the consumer's break check then observes the process
exited with both queues empty (the reader thread has not yet moved the
buffered line out of the pipe) and leaves the loop; the reader thread then
drains the pipe into the stdout queue and terminates, so both joins return.
The run is complete — pipes empty, process exited, consumer done — yet the
accumulated output is empty: the line sits in the queue forever and is
absent from the returned transcript.  The second half checks the model is
not degenerate: under a schedule that enqueues the line before the break
check, the same machine delivers the line exactly once. -/
theorem c8_lost_output :
    (runSched [REvent.pExit, REvent.consStep, REvent.rdOut]
        (rtInit ["hello".toList] []) =
      ⟨[], [], true, ["hello".toList], [], [], ConsumerPC.done⟩)
    ∧ rtComplete (runSched [REvent.pExit, REvent.consStep, REvent.rdOut]
        (rtInit ["hello".toList] []))
    ∧ (runSched [REvent.pExit, REvent.consStep, REvent.rdOut]
        (rtInit ["hello".toList] [])).out = []
    ∧ (runSched [REvent.rdOut, REvent.consStep, REvent.consStep,
          REvent.consStep, REvent.pExit, REvent.consStep]
        (rtInit ["hello".toList] [])).out = ["hello".toList]
    ∧ rtComplete (runSched [REvent.rdOut, REvent.consStep, REvent.consStep,
          REvent.consStep, REvent.pExit, REvent.consStep]
        (rtInit ["hello".toList] [])) := by
  exact ⟨rfl, ⟨rfl, rfl, rfl, rfl⟩, rfl, rfl, ⟨rfl, rfl, rfl, rfl⟩⟩
